import Mathlib

/-
Verification of the RustFFT sources against their specification.

The embedding translates the Rust sources into Lean:
  * src/lib.rs          : FFT facade, cooley_tukey, the generic butterfly,
                          dft, factor
  * src/plan.rs         : plan_fft / plan_fft_with_factors
  * src/algorithm/dft.rs: the DFT struct (perform_fft, process)
  * src/algorithm/butterflies.rs : Butterfly2..Butterfly7 kernels
  * src/hardcoded_butterflies.rs : the stride-based butterfly_2

Machine integers (usize) are modelled as Nat; Complex<T> either as an
abstract commutative ring element (when only ring operations are used)
or as an explicit pair of base-ring components (when the code touches
re/im separately).  Rust panics are modelled as Except.error carrying
the state of the output buffer at the moment of the panic.

Modules of the repository that are declared or called but whose files
are not under src (twiddles, math_utils, common, the algorithm trait
module, and the butterflies module of lib.rs) are modelled from the
specification; each such definition carries a doc comment starting
with "Modelled from the spec:".
-/

namespace RustFFT

/- ======================================================================
   Part 1: the running twiddle index with one conditional subtraction.
   This recurrence appears twice in the sources:
   * src/lib.rs, butterfly:      twiddle_idx += stride * data_idx;
                                 if twiddle_idx >= twiddles.len()
                                    { twiddle_idx -= twiddles.len() }
   * src/algorithm/dft.rs:       twiddle_index += k;
                                 if twiddle_index >= self.twiddles.len()
                                    { twiddle_index -= self.twiddles.len() }
   ====================================================================== -/

/-- Value of the running twiddle index after s loop iterations, when each
iteration adds step and then subtracts len once if the result reached len. -/
def twiddleIdx (step len : ℕ) : ℕ → ℕ
  | 0 => 0
  | s + 1 =>
    let t := twiddleIdx step len s + step
    if len ≤ t then t - len else t

lemma twiddleIdx_lt (step len : ℕ) (hstep : step < len) :
    ∀ s, twiddleIdx step len s < len := by
  intro s
  induction s with
  | zero => exact Nat.pos_of_ne_zero (by omega)
  | succ s ih =>
    simp only [twiddleIdx]
    split <;> omega

lemma twiddleIdx_eq_mod (step len : ℕ) (hstep : step < len) :
    ∀ s, twiddleIdx step len s = step * s % len := by
  intro s
  induction s with
  | zero => simp [twiddleIdx]
  | succ s ih =>
    have hlt := twiddleIdx_lt step len hstep s
    have hr : step * s % len < len := Nat.mod_lt _ (by omega)
    have hmod : step * (s + 1) % len = (step * s % len + step) % len := by
      conv_lhs => rw [Nat.mul_succ, Nat.add_mod, Nat.mod_eq_of_lt hstep]
    simp only [twiddleIdx]
    rw [ih, hmod]
    rcases le_or_lt len (step * s % len + step) with h | h
    · rw [if_pos h]
      conv_rhs => rw [Nat.mod_eq_sub_mod h]
      exact (Nat.mod_eq_of_lt (by omega)).symm
    · rw [if_neg (by omega), Nat.mod_eq_of_lt h]

/-- C10: in the generic butterfly of lib.rs, under the invariant
stride * fft_len * num_ffts = twiddles.len() established by cooley_tukey,
the increment stride * data_idx is below the table length, the running
twiddle index stays strictly below the table length at every access, and
the single conditional subtraction computes reduction modulo the length. -/
theorem c10_butterfly_twiddle_index_safe
    (stride fft_len num_ffts len data_idx s : ℕ)
    (hinv : stride * (fft_len * num_ffts) = len) (hlen : 0 < len)
    (hidx : data_idx < fft_len * num_ffts) :
    stride * data_idx < len ∧
    twiddleIdx (stride * data_idx) len s < len ∧
    twiddleIdx (stride * data_idx) len s = stride * data_idx * s % len := by
  have hstride : 0 < stride := by
    rcases Nat.eq_zero_or_pos stride with h | h
    · subst h; simp at hinv; omega
    · exact h
  have hstep : stride * data_idx < len := by
    calc stride * data_idx < stride * (fft_len * num_ffts) :=
          (Nat.mul_lt_mul_left hstride).mpr hidx
      _ = len := hinv
  exact ⟨hstep, twiddleIdx_lt _ _ hstep s, twiddleIdx_eq_mod _ _ hstep s⟩

theorem c10_butterfly_twiddle_index_safe_witness :
    2 * (3 * 1) = 6 ∧ (0 : ℕ) < 6 ∧ 2 < 3 * 1 ∧
    (2 * 2 < 6 ∧ twiddleIdx (2 * 2) 6 4 < 6 ∧
     twiddleIdx (2 * 2) 6 4 = 2 * 2 * 4 % 6) :=
  ⟨rfl, by decide, by decide,
   c10_butterfly_twiddle_index_safe 2 3 1 6 2 4 rfl (by decide) (by decide)⟩

/- ======================================================================
   Part 2: the DFT struct of src/algorithm/dft.rs.
   Complex<T> is used only through +, * and zero in perform_fft, so the
   sample type is an abstract commutative ring R.
   ====================================================================== -/

/-- Inner loop of DFT::perform_fft for one output cell k: the state is the
accumulating output cell and the running twiddle index. -/
def dft_loop {R : Type} [CommRing R] (tw : List R) (k : ℕ) :
    List R → R → ℕ → R
  | [], acc, _ => acc
  | xin :: rest, acc, t =>
    dft_loop tw k rest (acc + tw.getD t 0 * xin)
      (let u := t + k
       if tw.length ≤ u then u - tw.length else u)

/-- DFT::perform_fft of src/algorithm/dft.rs: one dft_loop per output cell,
output cells indexed 0..spectrum.len(). -/
def DFT.perform_fft {R : Type} [CommRing R] (tw signal : List R)
    (spectrumLen : ℕ) : List R :=
  (List.range spectrumLen).map fun k => dft_loop tw k signal 0 0

/-- Modelled from the spec: common::verify_length is called by
DFT::process but the common module is not under src; spec section 6 says
process fails if either buffer's length differs from len(), and
DFT::len() returns the twiddle table's length.  The check precedes the
writes, so a failing call carries the untouched output buffer. -/
def DFT.process {R : Type} [CommRing R] (tw input output : List R) :
    Except (List R) (List R) :=
  if input.length ≠ tw.length then .error output
  else if output.length ≠ tw.length then .error output
  else .ok (DFT.perform_fft tw input output.length)

lemma dft_loop_eq_sum {R : Type} [CommRing R] (tw : List R) (k : ℕ)
    (hk : k < tw.length) :
    ∀ (sig : List R) (acc : R) (t : ℕ), t < tw.length →
      dft_loop tw k sig acc t =
        acc + ∑ i ∈ Finset.range sig.length,
          tw.getD ((t + k * i) % tw.length) 0 * sig.getD i 0 := by
  intro sig
  induction sig with
  | nil => intro acc t _; simp [dft_loop]
  | cons x rest ih =>
    intro acc t ht
    have hred : (if tw.length ≤ t + k then t + k - tw.length else t + k) =
        (t + k) % tw.length := by
      rcases le_or_lt tw.length (t + k) with h | h
      · rw [if_pos h, Nat.mod_eq_sub_mod h, Nat.mod_eq_of_lt (by omega)]
      · rw [if_neg (by omega), Nat.mod_eq_of_lt h]
    simp only [dft_loop]
    rw [hred, ih _ ((t + k) % tw.length) (Nat.mod_lt _ (by omega))]
    rw [List.length_cons, Finset.sum_range_succ']
    have h0 : (t + k * 0) % tw.length = t := by
      simp [Nat.mod_eq_of_lt ht]
    have hterm : ∀ i, ((t + k) % tw.length + k * i) % tw.length =
        (t + k * (i + 1)) % tw.length := by
      intro i
      rw [Nat.mod_add_mod, Nat.mul_succ]
      ring_nf
    have hrest : ∑ i ∈ Finset.range rest.length,
        tw.getD (((t + k) % tw.length + k * i) % tw.length) 0 * rest.getD i 0 =
        ∑ i ∈ Finset.range rest.length,
          tw.getD ((t + k * (i + 1)) % tw.length) 0 *
            (x :: rest).getD (i + 1) 0 := by
      refine Finset.sum_congr rfl fun i _ => ?_
      rw [hterm i]
      rfl
    rw [hrest, h0]
    simp only [List.getD_cons_zero]
    ring

/-- C2: DFT::perform_fft, run on two length-N buffers with its length-N
twiddle table, writes spectrum[k] = sum over i of
twiddle[(k * i) mod N] * input[i] for every k below N; for N = 0 the
output is empty, so the call is well defined and writes nothing. -/
theorem c2_dft_perform_fft_formula {R : Type} [CommRing R]
    (tw input : List R) (N : ℕ)
    (htw : tw.length = N) (hin : input.length = N) :
    DFT.perform_fft tw input N =
      (List.range N).map fun k =>
        ∑ i ∈ Finset.range N, tw.getD (k * i % N) 0 * input.getD i 0 := by
  rcases Nat.eq_zero_or_pos N with hN | hN
  · subst hN; simp [DFT.perform_fft]
  · unfold DFT.perform_fft
    refine List.map_congr_left fun k hk => ?_
    have hkN : k < N := List.mem_range.mp hk
    rw [dft_loop_eq_sum tw k (by omega) input 0 0 (by omega), hin, htw]
    simp

theorem c2_dft_perform_fft_formula_witness :
    DFT.perform_fft ([3, 5] : List ℤ) [7, 11] 2 = [54, 76] := by
  have h := c2_dft_perform_fft_formula ([3, 5] : List ℤ) [7, 11] 2 rfl rfl
  rw [h]
  decide


/- ======================================================================
   Part 3: factor of src/lib.rs and the factor-list invariants.
   The Rust loop is   while next > 1 { for div in 2..next+1 {
     if next % div == 0 { next = next / div; factors.push((div, next));
     break } } }
   so each pushed pair is (divisor, remaining cofactor).
   ====================================================================== -/

/-- One round of the factor loop per unit of fuel: find the first divisor
of next in 2..=next, push (div, next / div) and continue on next / div.
The Rust loop terminates because next shrinks; fuel = n never runs out. -/
def factorAux : ℕ → ℕ → List (ℕ × ℕ)
  | 0, _ => []
  | fuel + 1, next =>
    if 1 < next then
      match (List.range' 2 (next - 1)).find? (fun d => next % d == 0) with
      | some d => (d, next / d) :: factorAux fuel (next / d)
      | none => []
    else []

/-- factor of src/lib.rs. -/
def factor (n : ℕ) : List (ℕ × ℕ) := factorAux n n

/-- Product of the first components of a factor list. -/
def prodFirsts (l : List (ℕ × ℕ)) : ℕ := (l.map Prod.fst).prod

/-- Shape invariant of the lists factor produces: every first component
is at least 2 and every second component is the product of the first
components of the remaining pairs. -/
def wellFormed : List (ℕ × ℕ) → Prop
  | [] => True
  | (n1, n2) :: rest => 2 ≤ n1 ∧ n2 = prodFirsts rest ∧ wellFormed rest

lemma find?_range'_spec {p : ℕ → Bool} :
    ∀ (len s d : ℕ), (List.range' s len).find? p = some d →
      p d = true ∧ s ≤ d ∧ d < s + len ∧ ∀ e, s ≤ e → e < d → p e = false := by
  intro len
  induction len with
  | zero => intro s d h; simp at h
  | succ len ih =>
    intro s d h
    rw [List.range'_succ, List.find?_cons] at h
    rcases hp : p s with _ | _
    · rw [hp] at h
      simp only at h
      obtain ⟨hpd, hsd, hdlt, hmin⟩ := ih (s + 1) d h
      refine ⟨hpd, by omega, by omega, fun e he1 he2 => ?_⟩
      rcases Nat.eq_or_lt_of_le he1 with rfl | hlt
      · exact hp
      · exact hmin e (by omega) he2
    · rw [hp] at h
      simp only [Option.some.injEq] at h
      subst h
      exact ⟨hp, le_refl s, by omega, fun e he1 he2 => absurd he1 (by omega)⟩

lemma find?_divisor_eq_minFac (next d : ℕ) (h2 : 2 ≤ next)
    (h : (List.range' 2 (next - 1)).find? (fun d => next % d == 0) = some d) :
    d = next.minFac := by
  obtain ⟨hpd, hd2, _, hmin⟩ := find?_range'_spec _ _ _ h
  have hdvd : d ∣ next := Nat.dvd_of_mod_eq_zero (by simpa using hpd)
  have hprime : (next.minFac).Prime := Nat.minFac_prime (by omega)
  have hle : next.minFac ≤ d := Nat.minFac_le_of_dvd hd2 hdvd
  rcases Nat.eq_or_lt_of_le hle with h | hlt
  · exact h.symm
  · exfalso
    have hmod := hmin next.minFac hprime.two_le hlt
    have hz : next % next.minFac = 0 := by
      obtain ⟨c, hc⟩ := Nat.minFac_dvd next
      nth_rewrite 1 [hc]
      exact Nat.mul_mod_right _ _
    simp [hz] at hmod

lemma find?_divisor_exists (next : ℕ) (h2 : 2 ≤ next) :
    ∃ d, (List.range' 2 (next - 1)).find? (fun d => next % d == 0) = some d := by
  rcases hfind : (List.range' 2 (next - 1)).find? (fun d => next % d == 0) with _ | d
  · exfalso
    rw [List.find?_eq_none] at hfind
    have hmem : next ∈ List.range' 2 (next - 1) :=
      List.mem_range'_1.mpr ⟨h2, by omega⟩
    have := hfind next hmem
    simp [Nat.mod_self] at this
  · exact ⟨d, rfl⟩

lemma prodFirsts_nil : prodFirsts [] = 1 := rfl

lemma prodFirsts_cons (p : ℕ × ℕ) (l : List (ℕ × ℕ)) :
    prodFirsts (p :: l) = p.1 * prodFirsts l := by
  simp [prodFirsts]

lemma factorAux_one (fuel : ℕ) : factorAux fuel 1 = [] := by
  cases fuel <;> simp [factorAux]

lemma factorAux_spec :
    ∀ (fuel next : ℕ), 1 ≤ next → next ≤ fuel →
      prodFirsts (factorAux fuel next) = next ∧
      wellFormed (factorAux fuel next) ∧
      (∀ pm ∈ factorAux fuel next, Nat.Prime pm.1 ∧ next.minFac ≤ pm.1) ∧
      List.Chain' (fun a b => a ≤ b) ((factorAux fuel next).map Prod.fst) := by
  intro fuel
  induction fuel with
  | zero => intro next h1 h2; omega
  | succ fuel ih =>
    intro next h1 h2
    rcases Nat.eq_or_lt_of_le h1 with rfl | hnext2
    · simp [factorAux_one, prodFirsts, wellFormed]
    · obtain ⟨d, hd⟩ := find?_divisor_exists next (by omega)
      have hdmf : d = next.minFac := find?_divisor_eq_minFac next d (by omega) hd
      have hdp : Nat.Prime d := hdmf ▸ Nat.minFac_prime (by omega)
      have hddvd : d ∣ next := hdmf ▸ Nat.minFac_dvd next
      have hd2 : 2 ≤ d := hdp.two_le
      have hq1 : 1 ≤ next / d :=
        (Nat.one_le_div_iff (by omega)).mpr (Nat.le_of_dvd (by omega) hddvd)
      have hqlt : next / d < next := Nat.div_lt_self (by omega) (by omega)
      obtain ⟨ihprod, ihwf, ihmem, ihchain⟩ := ih (next / d) hq1 (by omega)
      have heq : factorAux (fuel + 1) next =
          (d, next / d) :: factorAux fuel (next / d) := by
        rw [factorAux, if_pos (by omega), hd]
      have hmemle : ∀ pm ∈ factorAux fuel (next / d), d ≤ pm.1 := by
        intro pm hpm
        have hle2 := (ihmem pm hpm).2
        rcases Nat.eq_or_lt_of_le hq1 with hq | hq
        · rw [← hq, factorAux_one] at hpm
          simp at hpm
        · have hmfle : next.minFac ≤ (next / d).minFac := by
            refine Nat.minFac_le_of_dvd (Nat.minFac_prime (by omega)).two_le ?_
            exact dvd_trans (Nat.minFac_dvd _) (Nat.div_dvd_of_dvd hddvd)
          omega
      refine ⟨?_, ?_, ?_, ?_⟩
      · rw [heq, prodFirsts_cons, ihprod]
        exact Nat.mul_div_cancel' hddvd
      · rw [heq]
        exact ⟨hd2, ihprod.symm, ihwf⟩
      · rw [heq]
        intro pm hpm
        rcases List.mem_cons.mp hpm with rfl | hpm'
        · exact ⟨hdp, le_of_eq hdmf.symm⟩
        · exact ⟨(ihmem pm hpm').1, hdmf ▸ hmemle pm hpm'⟩
      · rw [heq]
        simp only [List.map_cons]
        rw [List.chain'_cons']
        refine ⟨?_, ihchain⟩
        intro b hb
        have hcons := List.eq_cons_of_mem_head? hb
        have hbmem : b ∈ (factorAux fuel (next / d)).map Prod.fst := by
          rw [hcons]
          exact List.mem_cons_self _ _
        obtain ⟨pm, hpm, hfst⟩ := List.mem_map.mp hbmem
        exact hfst ▸ hmemle pm hpm

/-- C6 counterexample: factor 4 of src/lib.rs returns [(2, 2), (2, 1)];
reading the second components as multiplicities, the product of
prime^multiplicity is 2^2 * 2^1 = 8, which differs from 4.  The second
component is the remaining cofactor, not a multiplicity. -/
theorem c6_factor_counterexample :
    factor 4 = [(2, 2), (2, 1)] ∧
    ((factor 4).map fun pm => pm.1 ^ pm.2).prod = 8 ∧
    ((factor 4).map fun pm => pm.1 ^ pm.2).prod ≠ 4 := by
  decide

/-- C6 amended: for every N at least 2, factor N of src/lib.rs is a
non-decreasing sequence of (prime, remaining-cofactor) pairs: every
first component is prime, the product of the first components equals N,
and each second component equals the product of the first components of
the following pairs. -/
theorem c6_factor_list_invariants (n : ℕ) (hn : 2 ≤ n) :
    (∀ pm ∈ factor n, Nat.Prime pm.1) ∧
    prodFirsts (factor n) = n ∧
    List.Chain' (fun a b => a ≤ b) ((factor n).map Prod.fst) ∧
    wellFormed (factor n) := by
  obtain ⟨hprod, hwf, hmem, hchain⟩ := factorAux_spec n n (by omega) (le_refl n)
  exact ⟨fun pm hpm => (hmem pm hpm).1, hprod, hchain, hwf⟩

theorem c6_factor_list_invariants_witness :
    prodFirsts (factor 12) = 12 ∧ Nat.Prime 2 :=
  ⟨(c6_factor_list_invariants 12 (by decide)).2.1,
   (c6_factor_list_invariants 12 (by decide)).1 (2, 6) (by decide)⟩

/- ======================================================================
   Part 4: the planner of src/plan.rs.
   ====================================================================== -/

/-- Run-length grouping of a non-decreasing list into (value, count)
pairs, counting adjacent equal values. -/
def countRuns : List ℕ → List (ℕ × ℕ)
  | [] => []
  | p :: rest =>
    match countRuns rest with
    | (q, c) :: tail => if p = q then (p, c + 1) :: tail else (p, 1) :: (q, c) :: tail
    | [] => [(p, 1)]

/-- Modelled from the spec: math_utils::prime_factors is called by
plan_fft but math_utils is not under src.  Spec section 3 describes the
factor list as an ascending ordered sequence of (prime, multiplicity)
pairs whose product of prime^multiplicity equals N; it is computed here
by grouping the ascending prime sequence of factor. -/
def prime_factors (n : ℕ) : List (ℕ × ℕ) :=
  countRuns ((factor n).map Prod.fst)

/-- Modelled from the Rust standard library: usize::is_power_of_two
checks that exactly one bit is set; repeated halving with explicit fuel
keeps the translation structurally recursive. -/
def isPow2Fuel : ℕ → ℕ → Bool
  | 0, _ => false
  | _ + 1, 0 => false
  | _ + 1, 1 => true
  | fuel + 1, m + 2 => (m + 2) % 2 == 0 && isPow2Fuel fuel ((m + 2) / 2)

/-- Modelled from the Rust standard library: len.is_power_of_two(). -/
def isPowerOfTwo (n : ℕ) : Bool := isPow2Fuel n n

lemma isPow2Fuel_pow (k : ℕ) :
    ∀ fuel m, m ≤ fuel → m = 2 ^ k → isPow2Fuel fuel m = true := by
  induction k with
  | zero =>
    intro fuel m hle hm
    have hm1 : m = 1 := by simpa using hm
    subst hm1
    cases fuel with
    | zero => omega
    | succ fuel => rfl
  | succ k ih =>
    intro fuel m hle hm
    have h2 : 2 ≤ m := by
      rw [hm]
      calc 2 = 2 ^ 1 := rfl
        _ ≤ 2 ^ (k + 1) := Nat.pow_le_pow_right (by omega) (by omega)
    obtain ⟨m2, rfl⟩ : ∃ m2, m = m2 + 2 := ⟨m - 2, by omega⟩
    obtain ⟨fuel2, rfl⟩ : ∃ f2, fuel = f2 + 1 := ⟨fuel - 1, by omega⟩
    have hdouble : m2 + 2 = 2 * 2 ^ k := by
      rw [hm, Nat.pow_succ]
      ring
    have hmod : (m2 + 2) % 2 = 0 := by omega
    have hdiv : (m2 + 2) / 2 = 2 ^ k := by omega
    have hrec := ih fuel2 ((m2 + 2) / 2) (by omega) hdiv
    show ((m2 + 2) % 2 == 0 && isPow2Fuel fuel2 ((m2 + 2) / 2)) = true
    rw [hmod, hrec]
    rfl

lemma isPowerOfTwo_pow (k : ℕ) : isPowerOfTwo (2 ^ k) = true :=
  isPow2Fuel_pow k (2 ^ k) (2 ^ k) (le_refl _) rfl

/-- Algorithm tree built by the planner of src/plan.rs, one constructor
per algorithm type it can return.  GoodThomasAlgorithm is imported by
plan.rs, so it gets a constructor even though no branch constructs it;
each constructor records the arguments of the corresponding new(). -/
inductive PlanTree where
  | noop : PlanTree
  | radix4 : ℕ → Bool → PlanTree
  | raders : ℕ → Bool → PlanTree
  | mixedRadixTerminal : ℕ → List (ℕ × ℕ) → Bool → PlanTree
  | mixedRadixSingle : ℕ → PlanTree → ℕ → PlanTree → Bool → PlanTree
  | goodThomas : ℕ → PlanTree → ℕ → PlanTree → Bool → PlanTree
  deriving DecidableEq

/-- plan_fft_with_factors of src/plan.rs.  The Rust recursion terminates
on every input the planner feeds it; the explicit fuel (one unit per
recursive call) makes the translation total, and plan_fft passes fuel
that never runs out on reachable inputs.  An empty factor list would
make the Rust code panic on factors[0]; it is unreachable and mapped to
the noop plan. -/
def plan_fft_with_factors : ℕ → ℕ → List (ℕ × ℕ) → Bool → PlanTree
  | 0, _, _, _ => .noop
  | fuel + 1, len, factors, inverse =>
    match factors with
    | [(p, count)] =>
      if 100 < p then
        if count = 1 then .raders len inverse
        else
          let left_count := count / 2
          let left_len := (List.range left_count).foldl (fun prod _ => prod * p) 1
          let right_len := len / left_len
          .mixedRadixSingle left_len
            (plan_fft_with_factors fuel left_len [(p, left_count)] inverse)
            right_len
            (plan_fft_with_factors fuel right_len [(p, count - left_count)] inverse)
            inverse
      else .mixedRadixTerminal len factors inverse
    | [] => .noop
    | fs =>
      let lf := fs.getLastD (0, 0)
      if 100 < lf.1 then
        let factor_size := lf.1 ^ lf.2
        .mixedRadixSingle factor_size
          (plan_fft_with_factors fuel factor_size [lf] inverse)
          (len / factor_size)
          (plan_fft_with_factors fuel (len / factor_size) fs.dropLast inverse)
          inverse
      else .mixedRadixTerminal len fs inverse

/-- plan_fft of src/plan.rs; the recursive planner calls receive fuel
len, ample for the recursion depth on every input.  An empty factor
list cannot occur for len at least 2 that is not a power of two. -/
def plan_fft (len : ℕ) (inverse : Bool) : PlanTree :=
  if len < 2 then .noop
  else if isPowerOfTwo len then .radix4 len inverse
  else
    match prime_factors len with
    | (smallest_factor, smallest_count) :: restFactors =>
      if smallest_factor = 2 ∧ 4 < smallest_count then
        .mixedRadixSingle (1 <<< smallest_count)
          (.radix4 (1 <<< smallest_count) inverse)
          (len >>> smallest_count)
          (plan_fft_with_factors len (len >>> smallest_count) restFactors inverse)
          inverse
      else
        plan_fft_with_factors len len
          ((smallest_factor, smallest_count) :: restFactors) inverse
    | [] => .noop

lemma foldl_range_mul (p : ℕ) : ∀ (c a : ℕ),
    (List.range c).foldl (fun prod _ => prod * p) a = a * p ^ c := by
  intro c
  induction c with
  | zero => intro a; simp
  | succ c ih =>
    intro a
    rw [List.range_succ, List.foldl_append, ih]
    simp [Nat.pow_succ, Nat.mul_assoc]

/-- C3: the planner returns the no-op plan for N < 2 and Radix4 for N a
power of two; on a single remaining prime factor P of multiplicity m it
returns RadersAlgorithm when P > 100 and m = 1, a MixedRadixSingle
combination of the two recursively planned halves P^(m/2) and
P^(m - m/2) when P > 100 and m > 1, and MixedRadixTerminal over the
full factor list when P <= 100. -/
theorem c3_planner_cases (inverse : Bool) :
    (∀ len, len < 2 → plan_fft len inverse = .noop) ∧
    (∀ len k, 2 ≤ len → len = 2 ^ k →
       plan_fft len inverse = .radix4 len inverse) ∧
    (∀ fuel len p, 100 < p →
       plan_fft_with_factors (fuel + 1) len [(p, 1)] inverse =
         .raders len inverse) ∧
    (∀ fuel len p m, 100 < p → 1 < m → len = p ^ m →
       plan_fft_with_factors (fuel + 1) len [(p, m)] inverse =
         .mixedRadixSingle (p ^ (m / 2))
           (plan_fft_with_factors fuel (p ^ (m / 2)) [(p, m / 2)] inverse)
           (p ^ (m - m / 2))
           (plan_fft_with_factors fuel (p ^ (m - m / 2))
             [(p, m - m / 2)] inverse)
           inverse) ∧
    (∀ fuel len p m, p ≤ 100 →
       plan_fft_with_factors (fuel + 1) len [(p, m)] inverse =
         .mixedRadixTerminal len [(p, m)] inverse) := by
  refine ⟨?_, ?_, ?_, ?_, ?_⟩
  · intro len h
    rw [plan_fft, if_pos h]
  · intro len k h2 hpow
    have ht : isPowerOfTwo len = true := by
      rw [hpow]
      exact isPowerOfTwo_pow k
    rw [plan_fft, if_neg (by omega), if_pos ht]
  · intro fuel len p hp
    simp only [plan_fft_with_factors]
    rw [if_pos hp]
    simp
  · intro fuel len p m hp hm hlen
    have hfold : (List.range (m / 2)).foldl (fun prod _ => prod * p) 1 =
        p ^ (m / 2) := by
      rw [foldl_range_mul]
      exact one_mul _
    have hdiv : len / p ^ (m / 2) = p ^ (m - m / 2) := by
      rw [hlen, Nat.pow_div (by omega) (by omega)]
    simp only [plan_fft_with_factors]
    rw [if_pos hp, if_neg (by omega), hfold, hdiv]
  · intro fuel len p m hp
    simp only [plan_fft_with_factors]
    rw [if_neg (by omega)]

theorem c3_planner_cases_witness :
    plan_fft 1 false = .noop ∧
    plan_fft 8 false = .radix4 8 false ∧
    plan_fft_with_factors (0 + 1) 101 [(101, 1)] false = .raders 101 false ∧
    plan_fft_with_factors (1 + 1) 10201 [(101, 2)] false =
      .mixedRadixSingle (101 ^ (2 / 2))
        (plan_fft_with_factors 1 (101 ^ (2 / 2)) [(101, 2 / 2)] false)
        (101 ^ (2 - 2 / 2))
        (plan_fft_with_factors 1 (101 ^ (2 - 2 / 2)) [(101, 2 - 2 / 2)] false)
        false ∧
    plan_fft_with_factors (0 + 1) 9 [(3, 2)] false =
      .mixedRadixTerminal 9 [(3, 2)] false :=
  ⟨(c3_planner_cases false).1 1 (by decide),
   (c3_planner_cases false).2.1 8 3 (by decide) (by decide),
   (c3_planner_cases false).2.2.1 0 101 101 (by decide),
   (c3_planner_cases false).2.2.2.1 1 10201 101 2 (by decide) (by decide)
     (by decide),
   (c3_planner_cases false).2.2.2.2 0 9 3 2 (by decide)⟩

/-- Whether a plan tree's root node is a GoodThomasAlgorithm. -/
def PlanTree.isGoodThomas : PlanTree → Bool
  | .goodThomas _ _ _ _ _ => true
  | _ => false

/-- Whether a plan tree's root node is a MixedRadixSingle. -/
def PlanTree.isMixedRadixSingle : PlanTree → Bool
  | .mixedRadixSingle _ _ _ _ _ => true
  | _ => false

/-- Whether a plan tree contains a GoodThomasAlgorithm node anywhere. -/
def PlanTree.hasGoodThomas : PlanTree → Bool
  | .mixedRadixSingle _ a _ b _ => a.hasGoodThomas || b.hasGoodThomas
  | .goodThomas _ _ _ _ _ => true
  | _ => false

/-- C7 counterexample: at N = 96 = 2^5 * 3 the planner splits off the
power of two from the coprime odd remainder, but the combining node it
constructs is MixedRadixSingle, not the GoodThomasAlgorithm. -/
theorem c7_good_thomas_counterexample :
    plan_fft 96 false =
      .mixedRadixSingle 32 (.radix4 32 false) 3
        (.mixedRadixTerminal 3 [(3, 1)] false) false ∧
    (plan_fft 96 false).isGoodThomas = false ∧
    (plan_fft 96 false).isMixedRadixSingle = true := by
  decide

/-- C7 amended: whenever the planner combines two sub-plans, also in the
coprime power-of-two split, the combining node it constructs is
MixedRadixSingle (the twiddle-based mixed-radix combinator); no plan it
returns ever contains a GoodThomasAlgorithm node. -/
theorem c7_combining_node_is_mixed_radix :
    (∀ fuel len factors inverse,
       (plan_fft_with_factors fuel len factors inverse).hasGoodThomas = false) ∧
    (∀ len inverse, (plan_fft len inverse).hasGoodThomas = false) ∧
    (∀ len inverse m rest, 2 ≤ len → isPowerOfTwo len = false →
       prime_factors len = (2, m) :: rest → 4 < m →
       plan_fft len inverse =
         .mixedRadixSingle (1 <<< m) (.radix4 (1 <<< m) inverse) (len >>> m)
           (plan_fft_with_factors len (len >>> m) rest inverse) inverse) := by
  have h1 : ∀ fuel len factors inverse,
      (plan_fft_with_factors fuel len factors inverse).hasGoodThomas = false := by
    intro fuel
    induction fuel with
    | zero => intro len factors inverse; rfl
    | succ fuel ih =>
      intro len factors inverse
      rcases factors with _ | ⟨⟨p, count⟩, rest⟩
      · rfl
      rcases rest with _ | ⟨qc, rest2⟩
      · simp only [plan_fft_with_factors]
        rcases lt_or_le 100 p with h | h
        · rw [if_pos h]
          rcases eq_or_ne count 1 with h1 | h1
          · rw [if_pos h1]
            rfl
          · rw [if_neg h1]
            simp [PlanTree.hasGoodThomas, ih]
        · rw [if_neg (by omega)]
          rfl
      · simp only [plan_fft_with_factors]
        split
        · simp [PlanTree.hasGoodThomas, ih]
        · rfl
  refine ⟨h1, ?_, ?_⟩
  · intro len inverse
    rw [plan_fft]
    split
    · rfl
    split
    · rfl
    rcases hpf : prime_factors len with _ | ⟨⟨sf, sc⟩, rest⟩
    · simp only [hpf]
      rfl
    · simp only [hpf]
      split
      · simp [PlanTree.hasGoodThomas, h1]
      · exact h1 _ _ _ _
  · intro len inverse m rest h2 hnp2 hpf hm
    rw [plan_fft, if_neg (by omega), if_neg (by simp [hnp2])]
    simp only [hpf]
    split
    · rfl
    · rename_i hcond
      simp at hcond
      omega

theorem c7_combining_node_is_mixed_radix_witness :
    (plan_fft_with_factors 5 30 [(2, 1), (3, 1), (5, 1)] false).hasGoodThomas
      = false ∧
    (plan_fft 96 true).hasGoodThomas = false ∧
    plan_fft 96 false =
      .mixedRadixSingle (1 <<< 5) (.radix4 (1 <<< 5) false) (96 >>> 5)
        (plan_fft_with_factors 96 (96 >>> 5) [(3, 1)] false) false :=
  ⟨c7_combining_node_is_mixed_radix.1 5 30 [(2, 1), (3, 1), (5, 1)] false,
   c7_combining_node_is_mixed_radix.2.1 96 true,
   c7_combining_node_is_mixed_radix.2.2 96 false 5 [(3, 1)] (by decide)
     (by decide) (by decide) (by decide)⟩

/- ======================================================================
   Part 5: the butterfly kernels of src/algorithm/butterflies.rs.
   These kernels manipulate re and im separately (scalar multiplies,
   multiplication by 0 + i tw.im, the i / -i rotation in Butterfly4), so
   Complex<T> is embedded as an explicit pair over the scalar type T.
   Buffers are lists read through getD; each in-place kernel is the
   function from the buffer contents before the call to the contents
   after it.
   ====================================================================== -/

/-- Complex<T> of the num crate as an explicit pair of scalars. -/
structure Cplx (T : Type) where
  re : T
  im : T
  deriving DecidableEq

namespace Cplx

variable {T : Type} [CommRing T]

instance : Zero (Cplx T) := ⟨⟨0, 0⟩⟩

instance : Add (Cplx T) := ⟨fun a b => ⟨a.re + b.re, a.im + b.im⟩⟩

instance : Sub (Cplx T) := ⟨fun a b => ⟨a.re - b.re, a.im - b.im⟩⟩

instance : Mul (Cplx T) :=
  ⟨fun a b => ⟨a.re * b.re - a.im * b.im, a.re * b.im + a.im * b.re⟩⟩

/-- Complex conjugate. -/
def conj (a : Cplx T) : Cplx T := ⟨a.re, -a.im⟩

/-- Complex<T> * T of the num crate: componentwise scalar multiply. -/
def scale (a : Cplx T) (s : T) : Cplx T := ⟨a.re * s, a.im * s⟩

lemma zero_def : (0 : Cplx T) = ⟨0, 0⟩ := rfl

lemma add_def (a b : Cplx T) : a + b = ⟨a.re + b.re, a.im + b.im⟩ := rfl

lemma sub_def (a b : Cplx T) : a - b = ⟨a.re - b.re, a.im - b.im⟩ := rfl

lemma mul_def (a b : Cplx T) :
    a * b = ⟨a.re * b.re - a.im * b.im, a.re * b.im + a.im * b.re⟩ := rfl

lemma conj_scale (a : Cplx T) (s : T) : (a.scale s).conj = a.conj.scale s := by
  simp [conj, scale, neg_mul]

end Cplx

section Butterflies

variable {T : Type}

/-- Butterfly2::perform_fft: temp = b0 + b1; b1 = b0 - b1; b0 = temp. -/
def Butterfly2.perform_fft [CommRing T] (b : List (Cplx T)) : List (Cplx T) :=
  [b.getD 0 0 + b.getD 1 0, b.getD 0 0 - b.getD 1 0]

/-- Butterfly3::perform_fft with twiddle tw (Butterfly3::new sets tw to
single_twiddle(1, 3, inverse), Butterfly3::inverse_of conjugates it):
a size-2 butterfly on buffer[1..], then buffer[0] += buffer[1],
buffer[1] = buffer[1] * tw.re + old buffer[0],
buffer[2] = buffer[2] * (0 + i tw.im), then another size-2 butterfly on
buffer[1..]. -/
def Butterfly3.perform_fft [CommRing T] (tw : Cplx T) (b : List (Cplx T)) :
    List (Cplx T) :=
  let a1 := b.getD 1 0 + b.getD 2 0
  let a2 := b.getD 1 0 - b.getD 2 0
  let temp := b.getD 0 0
  let m1 := a1.scale tw.re + temp
  let m2 := a2 * (⟨0, tw.im⟩ : Cplx T)
  [temp + a1, m1 + m2, m1 - m2]

/-- Butterfly4::perform_fft: transpose-swap elements 1 and 2, two size-2
butterflies on the columns, multiply element 3 by i (inverse) or -i
(forward), swap 1 and 2, two size-2 butterflies on the rows, swap 1
and 2. -/
def Butterfly4.perform_fft [CommRing T] (inverse : Bool)
    (b : List (Cplx T)) : List (Cplx T) :=
  let c0 := b.getD 0 0
  let c1 := b.getD 2 0
  let c2 := b.getD 1 0
  let c3 := b.getD 3 0
  let d0 := c0 + c1
  let d1 := c0 - c1
  let d2 := c2 + c3
  let d3 := c2 - c3
  let e3 : Cplx T := if inverse then ⟨-d3.im, d3.re⟩ else ⟨d3.im, -d3.re⟩
  [d0 + d2, d1 + e3, d0 - d2, d1 - e3]

/-- Butterfly5::new builds inner_fft_multiply: with w5 k standing for
twiddles::single_twiddle(k, 5, inverse) (modelled from the spec: the
twiddles module is not under src; spec section 4.1 gives the table
entries), twiddle1 and twiddle2 are w5 1 and w5 2 scaled by the quarter
0.25, laid out in powers-of-3 order via conjugates, and transformed once
by the size-4 kernel. -/
def Butterfly5.new [Field T] (w5 : ℕ → Cplx T) (inverse : Bool) :
    List (Cplx T) :=
  let tw1 := (w5 1).scale (1 / 4)
  let tw2 := (w5 2).scale (1 / 4)
  Butterfly4.perform_fft inverse [tw1, tw2.conj, tw1.conj, tw2]

/-- Butterfly5::perform_fft: reorder inputs 1,2,4,3 (powers of 2 mod 5)
into scratch, inner size-4 forward transform, pointwise multiply by
inner_fft_multiply, inner size-4 transform with inverted direction,
output 0 is the sum of all inputs, remaining outputs written in
inverse-root order as convolution result plus input 0. -/
def Butterfly5.perform_fft [Field T] (w5 : ℕ → Cplx T) (inverse : Bool)
    (b : List (Cplx T)) : List (Cplx T) :=
  let s1 := Butterfly4.perform_fft inverse
    [b.getD 1 0, b.getD 2 0, b.getD 4 0, b.getD 3 0]
  let mult := Butterfly5.new w5 inverse
  let s2 := (List.range 4).map fun i => s1.getD i 0 * mult.getD i 0
  let s3 := Butterfly4.perform_fft (!inverse) s2
  let first := b.getD 0 0
  let sum := first + b.getD 1 0 + b.getD 2 0 + b.getD 3 0 + b.getD 4 0
  [sum, s3.getD 0 0 + first, s3.getD 3 0 + first, s3.getD 1 0 + first,
   s3.getD 2 0 + first]

/-- Butterfly6::perform_fft with inner Butterfly3 twiddle tw3
(Butterfly6::new passes single_twiddle(1, 3, inverse),
Butterfly6::inverse_of conjugates it): Good-Thomas input permutation
0,2,4,3,5,1 into scratch, two size-3 column transforms, the 3x2-to-2x3
transpose, three size-2 row transforms, fixed output permutation. -/
def Butterfly6.perform_fft [CommRing T] (tw3 : Cplx T) (b : List (Cplx T)) :
    List (Cplx T) :=
  let s := Butterfly3.perform_fft tw3 [b.getD 0 0, b.getD 2 0, b.getD 4 0]
  let t := Butterfly3.perform_fft tw3 [b.getD 3 0, b.getD 5 0, b.getD 1 0]
  let u0 := s.getD 0 0 + t.getD 0 0
  let u1 := s.getD 0 0 - t.getD 0 0
  let u2 := s.getD 1 0 + t.getD 1 0
  let u3 := s.getD 1 0 - t.getD 1 0
  let u4 := s.getD 2 0 + t.getD 2 0
  let u5 := s.getD 2 0 - t.getD 2 0
  [u0, u3, u4, u1, u2, u5]

/-- Input reordering step of Butterfly7::perform_fft: the scratch is
loaded from buffer indices 3, 2, 6, 4, 5, 1. -/
def Butterfly7.input_perm [CommRing T] (b : List (Cplx T)) : List (Cplx T) :=
  [b.getD 3 0, b.getD 2 0, b.getD 6 0, b.getD 4 0, b.getD 5 0, b.getD 1 0]

/-- Twiddle layout built by Butterfly7::new before the inner transform:
with w7 k standing for twiddles::single_twiddle(k, 7, inverse) (modelled
from the spec: the twiddles module is not under src; spec section 4.1
gives the table entries), the entries w7 1, w7 2, w7 3 are scaled by the
sixth 1/6 and laid out with conjugates in powers-of-5 order. -/
def Butterfly7.kernel_pre [Field T] (w7 : ℕ → Cplx T) : List (Cplx T) :=
  let tw1 := (w7 1).scale (1 / 6)
  let tw2 := (w7 2).scale (1 / 6)
  let tw3 := (w7 3).scale (1 / 6)
  [tw1, tw2.conj, tw3.conj, tw1.conj, tw2, tw3]

/-- inner_fft_multiply of Butterfly7::new: the size-6 kernel applied
once to the scaled twiddle layout. -/
def Butterfly7.inner_fft_multiply [Field T] (w7 : ℕ → Cplx T)
    (tw3 : Cplx T) : List (Cplx T) :=
  Butterfly6.perform_fft tw3 (Butterfly7.kernel_pre w7)

/-- Convolution part of Butterfly7::perform_fft: inner size-6 transform
of the permuted inputs, pointwise multiplication by inner_fft_multiply,
inner size-6 transform with the conjugated twiddle
(Butterfly6::inverse_of). -/
def Butterfly7.conv [Field T] (w7 : ℕ → Cplx T) (tw3 : Cplx T)
    (b : List (Cplx T)) : List (Cplx T) :=
  let s1 := Butterfly6.perform_fft tw3 (Butterfly7.input_perm b)
  let s2 := (List.range 6).map fun i =>
    s1.getD i 0 * (Butterfly7.inner_fft_multiply w7 tw3).getD i 0
  Butterfly6.perform_fft tw3.conj s2

/-- Butterfly7::perform_fft: output 0 is the sum of all seven inputs;
the other outputs are written at positions 5, 4, 6, 2, 3, 1 as the
convolution results plus input 0. -/
def Butterfly7.perform_fft [Field T] (w7 : ℕ → Cplx T) (tw3 : Cplx T)
    (b : List (Cplx T)) : List (Cplx T) :=
  let s3 := Butterfly7.conv w7 tw3 b
  let first := b.getD 0 0
  let sum := first + b.getD 1 0 + b.getD 2 0 + b.getD 3 0 + b.getD 4 0 +
    b.getD 5 0 + b.getD 6 0
  [sum, s3.getD 5 0 + first, s3.getD 3 0 + first, s3.getD 4 0 + first,
   s3.getD 1 0 + first, s3.getD 0 0 + first, s3.getD 2 0 + first]

end Butterflies

/-- C9: the direction-independent size-2 kernel maps [(1,0),(-1,0)] to
[(0,0),(2,0)], and the forward size-4 kernel maps
[(0,1),(2.5,-3),(-1,-1),(4,0)] to [(5.5,-3),(-2,3.5),(-7.5,3),(4,0.5)]. -/
theorem c9_known_vectors :
    Butterfly2.perform_fft ([⟨1, 0⟩, ⟨-1, 0⟩] : List (Cplx ℚ)) =
      [⟨0, 0⟩, ⟨2, 0⟩] ∧
    Butterfly4.perform_fft false
        ([⟨0, 1⟩, ⟨5 / 2, -3⟩, ⟨-1, -1⟩, ⟨4, 0⟩] : List (Cplx ℚ)) =
      [⟨11 / 2, -3⟩, ⟨-2, 7 / 2⟩, ⟨-15 / 2, 3⟩, ⟨4, 1 / 2⟩] := by
  constructor
  · simp [Butterfly2.perform_fft, Cplx.add_def, Cplx.sub_def, Cplx.zero_def]
    norm_num
  · simp [Butterfly4.perform_fft, Cplx.add_def, Cplx.sub_def, Cplx.zero_def,
      List.getD]
    norm_num

/-- C8 counterexample: the size-7 kernel loads scratch[0] from input
index 3 (the first power of 3 mod 7), not from input index 1 as the
claimed order 1,3,2,6,4,5 prescribes for the 0th scratch element; on an
input with pairwise distinct entries the two differ. -/
theorem c8_input_order_counterexample :
    Butterfly7.input_perm
        ([⟨0, 0⟩, ⟨1, 0⟩, ⟨2, 0⟩, ⟨3, 0⟩, ⟨4, 0⟩, ⟨5, 0⟩, ⟨6, 0⟩] :
          List (Cplx ℤ)) =
      [⟨3, 0⟩, ⟨2, 0⟩, ⟨6, 0⟩, ⟨4, 0⟩, ⟨5, 0⟩, ⟨1, 0⟩] ∧
    (⟨3, 0⟩ : Cplx ℤ) ≠ ⟨1, 0⟩ := by
  decide

/-- C8 amended: Butterfly7 permutes its six nonzero-index inputs by the
powers of the primitive root 3 mod 7 starting at the first power, so
scratch[j] = input[3^(j+1) mod 7] (order 3,2,6,4,5,1); its precomputed
twiddle kernel is the powers-of-5 layout 1,5,4,6,2,3 (via conjugates)
with every entry scaled by 1/6; and it reconstructs the nonzero outputs
at indices 5^(j+1) mod 7 (order 5,4,6,2,3,1), each as the convolution
result plus input[0]. -/
theorem c8_butterfly7_structure {T : Type} [Field T]
    (w7 : ℕ → Cplx T) (tw3 : Cplx T) (b : List (Cplx T)) (j : Fin 6) :
    (Butterfly7.input_perm b).getD j 0 = b.getD (3 ^ (j.val + 1) % 7) 0 ∧
    Butterfly7.kernel_pre w7 =
      ([w7 1, (w7 2).conj, (w7 3).conj, (w7 1).conj, w7 2, w7 3].map
        fun z => z.scale (1 / 6)) ∧
    (Butterfly7.perform_fft w7 tw3 b).getD (5 ^ (j.val + 1) % 7) 0 =
      (Butterfly7.conv w7 tw3 b).getD j 0 + b.getD 0 0 := by
  refine ⟨?_, ?_, ?_⟩
  · fin_cases j <;> rfl
  · simp [Butterfly7.kernel_pre, Cplx.conj_scale]
  · fin_cases j <;> rfl

/- ======================================================================
   Part 6: cooley_tukey, the generic butterfly and the FFT facade of
   src/lib.rs, plus the stride-based butterfly_2 of
   src/hardcoded_butterflies.rs.  These touch Complex<T> only through
   ring operations, so the sample type is an abstract commutative ring.
   In-place writes into the spectrum are modelled functionally: each
   pass maps the buffer-contents function before it to the one after
   it, and the overall spectrum buffer is that function sampled on its
   index range.
   ====================================================================== -/

/-- Generic butterfly of src/lib.rs (fn butterfly): for each fft_idx the
scratch holds data[fft_idx + s * num_ffts] for s below fft_len; every
output position data_idx = fft_idx + j * num_ffts below
fft_len * num_ffts is overwritten with the scratch-twiddle inner
product, whose running twiddle index advances by stride * data_idx with
one conditional subtraction; all other positions are untouched. -/
def butterfly {R : Type} [CommRing R] (data : ℕ → R) (stride : ℕ)
    (twiddles : List R) (num_ffts fft_len : ℕ) : ℕ → R :=
  fun idx =>
    if idx < fft_len * num_ffts then
      ∑ s ∈ Finset.range fft_len,
        data (idx % num_ffts + s * num_ffts) *
          twiddles.getD (twiddleIdx (stride * idx) twiddles.length s) 0
    else data idx

/-- butterfly_2 of src/hardcoded_butterflies.rs: for each fft_idx below
num_ffts, with twiddle index fft_idx * stride (advancing by stride, no
reduction), temp = data[fft_idx + num_ffts] * twiddle,
data[fft_idx + num_ffts] = data[fft_idx] - temp and
data[fft_idx] = data[fft_idx] + temp. -/
def butterfly_2 {R : Type} [CommRing R] (data : ℕ → R) (stride : ℕ)
    (twiddles : List R) (num_ffts : ℕ) : ℕ → R :=
  fun idx =>
    if idx < num_ffts then
      data idx + data (idx + num_ffts) * twiddles.getD (idx * stride) 0
    else if idx < 2 * num_ffts then
      data (idx - num_ffts) -
        data idx * twiddles.getD ((idx - num_ffts) * stride) 0
    else data idx

/-- Modelled from the spec: lib.rs declares mod butterflies and calls
butterfly_3 from it, but that module's file is not under src (the
present hardcoded_butterflies.rs has no butterfly_3).  Per the spec
(glossary and section 8: planner paths and hardcoded kernels agree) a
hardcoded butterfly computes exactly the small fixed-size transform the
generic routine computes, so butterfly_3 is the generic butterfly at
fft_len = 3. -/
def butterfly_3 {R : Type} [CommRing R] (data : ℕ → R) (stride : ℕ)
    (twiddles : List R) (num_ffts : ℕ) : ℕ → R :=
  butterfly data stride twiddles num_ffts 3

/-- Modelled from the spec: lib.rs calls a five-argument butterfly_4
taking the direction flag; the butterflies module file carrying it is
not under src (the four-argument butterfly_4 of
hardcoded_butterflies.rs is a different, forward-only function).  Per
the spec it computes the size-4 transform of the generic routine; the
direction is already encoded in the twiddle table, so the flag is
unused. -/
def butterfly_4 {R : Type} [CommRing R] (data : ℕ → R) (stride : ℕ)
    (twiddles : List R) (num_ffts : ℕ) (inverse : Bool) : ℕ → R :=
  butterfly data stride twiddles num_ffts 4

/-- Modelled from the spec: lib.rs calls butterfly_5 from the missing
butterflies module; per the spec it computes the size-5 transform of
the generic routine. -/
def butterfly_5 {R : Type} [CommRing R] (data : ℕ → R) (stride : ℕ)
    (twiddles : List R) (num_ffts : ℕ) : ℕ → R :=
  butterfly data stride twiddles num_ffts 5

/-- Identity leaf of cooley_tukey (first factor has n2 = 1): the loop
copies signal[j * stride] into spectrum[j] while j * stride is inside
the signal; other spectrum positions are untouched. -/
def ct_leaf {R : Type} (signal : List R) [Zero R] (spectrum : ℕ → R)
    (stride : ℕ) : ℕ → R :=
  fun j =>
    if j * stride < signal.length then signal.getD (j * stride) 0
    else spectrum j

/-- Sequential for-loop of the recursive cooley_tukey calls: call i
reads and writes through the spectrum slice that starts at i * n2. -/
def overlayLoop {R : Type} (n2 : ℕ) (call : ℕ → (ℕ → R) → ℕ → R) :
    ℕ → (ℕ → R) → ℕ → R
  | 0, spectrum => spectrum
  | i + 1, spectrum =>
    let acc := overlayLoop n2 call i spectrum
    fun k =>
      if i * n2 ≤ k then call i (fun m => acc (m + i * n2)) (k - i * n2)
      else acc k

/-- Match of cooley_tukey on n1: the hardcoded kernels take the sizes
5, 4, 3 and 2, everything else goes to the generic butterfly. -/
def butterflyDispatch {R : Type} [CommRing R] (pre : ℕ → R) (stride : ℕ)
    (twiddles : List R) (n2 n1 : ℕ) (inverse : Bool) : ℕ → R :=
  match n1 with
  | 5 => butterfly_5 pre stride twiddles n2
  | 4 => butterfly_4 pre stride twiddles n2 inverse
  | 3 => butterfly_3 pre stride twiddles n2
  | 2 => butterfly_2 pre stride twiddles n2
  | _ => butterfly pre stride twiddles n2 n1

/-- cooley_tukey of src/lib.rs: on factor (n1, n2), either the identity
leaf (n2 = 1) or n1 recursive calls on stride-shifted signals into
consecutive length-n2 spectrum slices at stride * n1, followed by the
size-n1 butterfly pass dispatched to the hardcoded kernels for
n1 = 5, 4, 3, 2 and the generic butterfly otherwise; on an empty factor
list the spectrum is left untouched. -/
def cooley_tukey {R : Type} [CommRing R] (twiddles : List R)
    (inverse : Bool) :
    List (ℕ × ℕ) → List R → (ℕ → R) → ℕ → (ℕ → R)
  | [], _, spectrum, _ => spectrum
  | (n1, n2) :: rest, signal, spectrum, stride =>
    let pre : ℕ → R :=
      if n2 = 1 then ct_leaf signal spectrum stride
      else
        overlayLoop n2
          (fun i spec =>
            cooley_tukey twiddles inverse rest (signal.drop (i * stride))
              spec (stride * n1))
          n1 spectrum
    butterflyDispatch pre stride twiddles n2 n1 inverse

/-- Twiddle table of FFT::new: entry i is omega ^ i, where omega stands
for exp(dir 2 pi i / len) with dir = -1 forward and +1 inverse; the
float exponentials are abstracted as powers of a ring element, forward
and inverse tables being generated from mutually inverse roots. -/
def fft_twiddles {R : Type} [CommRing R] (omega : R) (N : ℕ) : List R :=
  (List.range N).map fun i => omega ^ i

/-- FFT::process of src/lib.rs: assert that the two buffers have equal
length and that it equals the twiddle-table length (panicking before
any write), then run cooley_tukey at stride 1 over the factor list of
FFT::new; the output buffer is the final spectrum function sampled on
its index range. -/
def FFT.process {R : Type} [CommRing R] (omega : R) (N : ℕ)
    (inverse : Bool) (signal spectrum : List R) :
    Except (List R) (List R) :=
  if signal.length ≠ spectrum.length then .error spectrum
  else if signal.length ≠ N then .error spectrum
  else
    .ok ((List.range spectrum.length).map
      (cooley_tukey (fft_twiddles omega N) inverse (factor N) signal
        (fun i => spectrum.getD i 0) 1))


/- ======================================================================
   Part 7: process and process_multi entry points (claims C4, C5).
   ====================================================================== -/

/-- Shared process shape of the butterflies of
src/algorithm/butterflies.rs: verify_size asserts the signal length and
then the spectrum length against the fixed size (each assert panics
before any write), then output.copy_from_slice(input) (never panicking
here, both lengths equal n) and the in-place kernel, so the output is
the kernel applied to the copied input. -/
def processWithVerify {A : Type} (n : ℕ) (kernelFn : List A → List A)
    (input output : List A) : Except (List A) (List A) :=
  if input.length ≠ n then .error output
  else if output.length ≠ n then .error output
  else .ok (kernelFn input)

/-- Butterfly2::process: verify_size at len 2, copy, in-place kernel. -/
def Butterfly2.process {T : Type} [CommRing T]
    (input output : List (Cplx T)) : Except (List (Cplx T)) (List (Cplx T)) :=
  processWithVerify 2 Butterfly2.perform_fft input output

/-- Butterfly3::process: verify_size at len 3, copy, in-place kernel. -/
def Butterfly3.process {T : Type} [CommRing T] (tw : Cplx T)
    (input output : List (Cplx T)) : Except (List (Cplx T)) (List (Cplx T)) :=
  processWithVerify 3 (Butterfly3.perform_fft tw) input output

/-- Butterfly4::process: verify_size at len 4, copy, in-place kernel. -/
def Butterfly4.process {T : Type} [CommRing T] (inverse : Bool)
    (input output : List (Cplx T)) : Except (List (Cplx T)) (List (Cplx T)) :=
  processWithVerify 4 (Butterfly4.perform_fft inverse) input output

/-- Butterfly5::process: verify_size at len 5, copy, in-place kernel. -/
def Butterfly5.process {T : Type} [Field T] (w5 : ℕ → Cplx T)
    (inverse : Bool) (input output : List (Cplx T)) :
    Except (List (Cplx T)) (List (Cplx T)) :=
  processWithVerify 5 (Butterfly5.perform_fft w5 inverse) input output

/-- Butterfly6::process: verify_size at len 6, copy, in-place kernel. -/
def Butterfly6.process {T : Type} [CommRing T] (tw3 : Cplx T)
    (input output : List (Cplx T)) : Except (List (Cplx T)) (List (Cplx T)) :=
  processWithVerify 6 (Butterfly6.perform_fft tw3) input output

/-- Butterfly7::process: verify_size at len 7, copy, in-place kernel. -/
def Butterfly7.process {T : Type} [Field T] (w7 : ℕ → Cplx T)
    (tw3 : Cplx T) (input output : List (Cplx T)) :
    Except (List (Cplx T)) (List (Cplx T)) :=
  processWithVerify 7 (Butterfly7.perform_fft w7 tw3) input output

lemma processWithVerify_eq {A : Type} (n : ℕ) (kernelFn : List A → List A)
    (input output : List A) :
    processWithVerify n kernelFn input output =
      if input.length = n ∧ output.length = n then .ok (kernelFn input)
      else .error output := by
  unfold processWithVerify
  by_cases h1 : input.length = n <;> by_cases h2 : output.length = n <;>
    simp [h1, h2]

/-- C4: for every embedded Algorithm (the six butterflies, the DFT
struct and the FFT facade of lib.rs), process fails exactly when either
buffer's length differs from len(), and every failing call fails before
writing: it returns the output buffer unchanged. -/
theorem c4_process_fails_exactly_on_length {T : Type} [Field T]
    {R : Type} [CommRing R]
    (tw tw3 : Cplx T) (w5 w7 : ℕ → Cplx T) (inverse : Bool)
    (input output : List (Cplx T))
    (dtw dinput doutput : List R)
    (omega : R) (N : ℕ) (fsignal fspectrum : List R) :
    Butterfly2.process input output =
      (if input.length = 2 ∧ output.length = 2
       then .ok (Butterfly2.perform_fft input) else .error output) ∧
    Butterfly3.process tw input output =
      (if input.length = 3 ∧ output.length = 3
       then .ok (Butterfly3.perform_fft tw input) else .error output) ∧
    Butterfly4.process inverse input output =
      (if input.length = 4 ∧ output.length = 4
       then .ok (Butterfly4.perform_fft inverse input) else .error output) ∧
    Butterfly5.process w5 inverse input output =
      (if input.length = 5 ∧ output.length = 5
       then .ok (Butterfly5.perform_fft w5 inverse input)
       else .error output) ∧
    Butterfly6.process tw3 input output =
      (if input.length = 6 ∧ output.length = 6
       then .ok (Butterfly6.perform_fft tw3 input) else .error output) ∧
    Butterfly7.process w7 tw3 input output =
      (if input.length = 7 ∧ output.length = 7
       then .ok (Butterfly7.perform_fft w7 tw3 input) else .error output) ∧
    DFT.process dtw dinput doutput =
      (if dinput.length = dtw.length ∧ doutput.length = dtw.length
       then .ok (DFT.perform_fft dtw dinput doutput.length)
       else .error doutput) ∧
    FFT.process omega N inverse fsignal fspectrum =
      (if fsignal.length = N ∧ fspectrum.length = N
       then .ok ((List.range fspectrum.length).map
         (cooley_tukey (fft_twiddles omega N) inverse (factor N) fsignal
           (fun i => fspectrum.getD i 0) 1))
       else .error fspectrum) := by
  refine ⟨processWithVerify_eq _ _ _ _, processWithVerify_eq _ _ _ _,
    processWithVerify_eq _ _ _ _, processWithVerify_eq _ _ _ _,
    processWithVerify_eq _ _ _ _, processWithVerify_eq _ _ _ _, ?_, ?_⟩
  · unfold DFT.process
    by_cases h1 : dinput.length = dtw.length <;>
      by_cases h2 : doutput.length = dtw.length <;> simp [h1, h2]
  · unfold FFT.process
    by_cases h1 : fsignal.length = fspectrum.length <;>
      by_cases h2 : fsignal.length = N <;>
      by_cases h3 : fspectrum.length = N <;>
      simp [h1, h2, h3] <;> omega

/- ======================================================================
   C5: process_multi of the butterflies performs no length validation.
   ====================================================================== -/

/-- chunks_mut(n) splitting: successive chunks of n elements, the last
chunk possibly shorter; fuel (at least the list length) bounds the
number of chunks. -/
def chunksOfF {A : Type} : ℕ → ℕ → List A → List (List A)
  | 0, _, _ => []
  | _ + 1, _, [] => []
  | fuel + 1, n, l => l.take n :: chunksOfF fuel n (l.drop n)

/-- One chunk of Butterfly2::process_multi_inplace.  On a chunk shorter
than 2 the Rust kernel reads past the end through get_unchecked
(undefined behavior); that case, unreachable when the caller respects
the spec's length contract, is modelled as leaving the chunk
unchanged. -/
def Butterfly2.multi_chunk {T : Type} [CommRing T] :
    List (Cplx T) → List (Cplx T)
  | [a, b] => [a + b, a - b]
  | c => c

/-- Butterfly2::process_multi of src/algorithm/butterflies.rs: it
performs no length validation of its own; output.copy_from_slice(input)
panics exactly when the two buffer lengths differ (before any write),
then process_multi_inplace runs the kernel on every chunks_mut(2)
chunk. -/
def Butterfly2.process_multi {T : Type} [CommRing T]
    (input output : List (Cplx T)) :
    Except (List (Cplx T)) (List (Cplx T)) :=
  if input.length = output.length then
    .ok ((chunksOfF input.length 2 input).map Butterfly2.multi_chunk).flatten
  else .error output

/-- C5 (code bug, evaluated at the failing input): 0 is not a positive
multiple of len() = 2, yet Butterfly2::process_multi on two empty
buffers succeeds instead of failing, because the butterflies never
validate the batched length. -/
theorem c5_process_multi_missing_validation :
    Butterfly2.process_multi ([] : List (Cplx ℤ)) [] = .ok [] ∧
    ¬ ∃ k, 0 < k ∧ ([] : List (Cplx ℤ)).length = 2 * k := by
  constructor
  · rfl
  · rintro ⟨k, hk, h⟩
    simp at h
    omega


/- ======================================================================
   Part 8: correctness of cooley_tukey (claim C1).
   The exact-arithmetic abstraction: the float table entries
   exp(dir 2 pi i k / N) are powers of an abstract primitive N-th root
   of unity in an integral domain, with the forward and inverse roots
   mutually inverse.
   ====================================================================== -/

lemma fft_twiddles_length {R : Type} [CommRing R] (omega : R) (N : ℕ) :
    (fft_twiddles omega N).length = N := by
  simp [fft_twiddles]

lemma fft_twiddles_getD {R : Type} [CommRing R] (omega : R) {N : ℕ}
    {j : ℕ} (hj : j < N) : (fft_twiddles omega N).getD j 0 = omega ^ j := by
  rw [fft_twiddles, List.getD_eq_getElem?_getD, List.getElem?_map,
    List.getElem?_range hj]
  rfl

lemma pow_mod_cycle {R : Type} [CommRing R] {omega : R} {N : ℕ}
    (h : omega ^ N = 1) (a : ℕ) : omega ^ (a % N) = omega ^ a := by
  conv_rhs => rw [← Nat.div_add_mod a N]
  rw [pow_add, pow_mul, h, one_pow, one_mul]

lemma prim_root_half_neg_one {R : Type} [CommRing R] [IsDomain R]
    {omega : R} {N M : ℕ} (homega : IsPrimitiveRoot omega N)
    (hM : 0 < M) (hMN : 2 * M = N) : omega ^ M = -1 := by
  have hsq : omega ^ M * omega ^ M = 1 := by
    rw [← pow_add, show M + M = N by omega]
    exact homega.pow_eq_one
  rcases mul_self_eq_one_iff.mp hsq with h | h
  · exact absurd h (homega.pow_ne_one_of_pos_of_lt hM (by omega))
  · exact h

lemma prim_root_geom_sum {R : Type} [CommRing R] [IsDomain R]
    {omega : R} {N : ℕ} (homega : IsPrimitiveRoot omega N) (m : ℕ) :
    ∑ j ∈ Finset.range N, omega ^ (m * j) =
      if N ∣ m then (N : R) else 0 := by
  by_cases hdvd : N ∣ m
  · rw [if_pos hdvd]
    have h1 : omega ^ m = 1 := (homega.pow_eq_one_iff_dvd m).mpr hdvd
    calc ∑ j ∈ Finset.range N, omega ^ (m * j)
        = ∑ _j ∈ Finset.range N, (1 : R) := by
          refine Finset.sum_congr rfl fun j _ => ?_
          rw [pow_mul, h1, one_pow]
      _ = (N : R) := by simp
  · rw [if_neg hdvd]
    have hne : omega ^ m - 1 ≠ 0 := by
      intro h
      exact hdvd ((homega.pow_eq_one_iff_dvd m).mp (by
        have := sub_eq_zero.mp h
        exact this))
    have hgeom := geom_sum_mul (omega ^ m) N
    have hzero : (omega ^ m) ^ N - 1 = 0 := by
      rw [← pow_mul, mul_comm, pow_mul, homega.pow_eq_one, one_pow, sub_self]
    have hmul : (∑ j ∈ Finset.range N, (omega ^ m) ^ j) * (omega ^ m - 1) = 0 := by
      rw [hgeom, hzero]
    rcases mul_eq_zero.mp hmul with h | h
    · rw [← h]
      refine Finset.sum_congr rfl fun j _ => ?_
      rw [pow_mul]
    · exact absurd h hne

lemma prodFirsts_pos {l : List (ℕ × ℕ)} (hwf : wellFormed l) :
    0 < prodFirsts l := by
  induction l with
  | nil => exact Nat.one_pos
  | cons head rest ih =>
    obtain ⟨n1, n2⟩ := head
    obtain ⟨h1, _, hrest⟩ := hwf
    rw [prodFirsts_cons]
    exact Nat.mul_pos (by omega) (ih hrest)

lemma wf_rest_ne_nil {n1 n2 : ℕ} {rest : List (ℕ × ℕ)}
    (hwf : wellFormed ((n1, n2) :: rest)) (hn2 : n2 ≠ 1) : rest ≠ [] := by
  obtain ⟨_, hn2eq, _⟩ := hwf
  intro h
  subst h
  exact hn2 (hn2eq.trans rfl)

lemma sum_range_mul_split {M : Type} [AddCommMonoid M] (f : ℕ → M)
    (a : ℕ) : ∀ b : ℕ, ∑ i ∈ Finset.range (a * b), f i =
      ∑ s ∈ Finset.range a, ∑ m ∈ Finset.range b, f (s + m * a) := by
  intro b
  induction b with
  | zero => simp
  | succ b ih =>
    have hab : a * (b + 1) = a * b + a := by ring
    rw [hab, Finset.sum_range_add, ih]
    rw [← Finset.sum_add_distrib]
    refine Finset.sum_congr rfl fun s hs => ?_
    rw [Finset.sum_range_succ]
    congr 2
    ring


lemma twiddleIdx_zero (step len : ℕ) : twiddleIdx step len 0 = 0 := rfl

lemma butterfly_2_eq_generic {R : Type} [CommRing R] [IsDomain R]
    {omega : R} {N : ℕ} (homega : IsPrimitiveRoot omega N) (hN : 0 < N)
    (data : ℕ → R) (stride num_ffts : ℕ)
    (hinv : stride * (2 * num_ffts) = N) :
    butterfly_2 data stride (fft_twiddles omega N) num_ffts =
      butterfly data stride (fft_twiddles omega N) num_ffts 2 := by
  have hstride : 0 < stride := by
    rcases Nat.eq_zero_or_pos stride with h | h
    · subst h
      simp at hinv
      omega
    · exact h
  have hnum : 0 < num_ffts := by
    rcases Nat.eq_zero_or_pos num_ffts with h | h
    · subst h
      simp at hinv
      omega
    · exact h
  have hlen : (fft_twiddles omega N).length = N := fft_twiddles_length omega N
  have hhalfN : 2 * (stride * num_ffts) = N := by
    rw [← hinv]
    ring
  have hhalf : omega ^ (stride * num_ffts) = -1 :=
    prim_root_half_neg_one homega (Nat.mul_pos hstride hnum) hhalfN
  have hsn : stride * num_ffts ≤ N := by omega
  funext idx
  unfold butterfly_2 butterfly
  rw [hlen]
  rcases lt_or_le idx num_ffts with h1 | h1
  · have hidx2 : idx < 2 * num_ffts := by omega
    have hstep : stride * idx < N := by
      have h := (Nat.mul_lt_mul_left hstride).mpr h1
      omega
    rw [if_pos h1, if_pos hidx2]
    rw [Finset.sum_range_succ, Finset.sum_range_succ, Finset.sum_range_zero,
      zero_add]
    have hmod : idx % num_ffts = idx := Nat.mod_eq_of_lt h1
    have ht1 : twiddleIdx (stride * idx) N 1 = stride * idx := by
      rw [twiddleIdx_eq_mod _ _ hstep, Nat.mul_one, Nat.mod_eq_of_lt hstep]
    rw [hmod, twiddleIdx_zero, ht1]
    rw [fft_twiddles_getD omega hN, fft_twiddles_getD omega hstep]
    have harg0 : idx + 0 * num_ffts = idx := by omega
    have harg1 : idx + 1 * num_ffts = idx + num_ffts := by omega
    rw [harg0, harg1, Nat.mul_comm idx stride,
      fft_twiddles_getD omega hstep]
    rw [pow_zero, mul_one]
  · rcases lt_or_le idx (2 * num_ffts) with h2 | h2
    · have hfi : idx - num_ffts < num_ffts := by omega
      have hstep : stride * idx < N := by
        have h := (Nat.mul_lt_mul_left hstride).mpr h2
        omega
      have hstepf : stride * (idx - num_ffts) < N := by
        have h := (Nat.mul_lt_mul_left hstride).mpr hfi
        omega
      rw [if_neg (by omega), if_pos h2, if_pos h2]
      rw [Finset.sum_range_succ, Finset.sum_range_succ, Finset.sum_range_zero,
        zero_add]
      have hmod : idx % num_ffts = idx - num_ffts := by
        rw [Nat.mod_eq_sub_mod h1, Nat.mod_eq_of_lt hfi]
      have ht1 : twiddleIdx (stride * idx) N 1 = stride * idx := by
        rw [twiddleIdx_eq_mod _ _ hstep, Nat.mul_one, Nat.mod_eq_of_lt hstep]
      rw [hmod, twiddleIdx_zero, ht1]
      rw [fft_twiddles_getD omega hN, fft_twiddles_getD omega hstep]
      have harg0 : idx - num_ffts + 0 * num_ffts = idx - num_ffts := by omega
      have harg1 : idx - num_ffts + 1 * num_ffts = idx := by omega
      rw [harg0, harg1, Nat.mul_comm (idx - num_ffts) stride,
        fft_twiddles_getD omega hstepf]
      have hsplit : stride * idx = stride * (idx - num_ffts) + stride * num_ffts := by
        rw [← Nat.mul_add]
        congr 1
        omega
      rw [hsplit, pow_add, hhalf, pow_zero, mul_one]
      ring
    · rw [if_neg (by omega), if_neg (by omega), if_neg (by omega)]

lemma butterflyDispatch_eq_generic {R : Type} [CommRing R] [IsDomain R]
    {omega : R} {N : ℕ} (homega : IsPrimitiveRoot omega N) (hN : 0 < N)
    (pre : ℕ → R) (stride n2 n1 : ℕ) (inverse : Bool) (h2 : 2 ≤ n1)
    (hinv : stride * (n1 * n2) = N) :
    butterflyDispatch pre stride (fft_twiddles omega N) n2 n1 inverse =
      butterfly pre stride (fft_twiddles omega N) n2 n1 := by
  rcases n1 with _ | _ | _ | _ | _ | _ | n
  · omega
  · omega
  · exact butterfly_2_eq_generic homega hN pre stride n2 hinv
  · rfl
  · rfl
  · rfl
  · rfl


lemma butterfly_dft_step {R : Type} [CommRing R] {omega : R} {N : ℕ}
    (h1 : omega ^ N = 1) (hN : 0 < N)
    (pre y spectrum : ℕ → R) (stride n1 n2 : ℕ)
    (hstride : 0 < stride) (hn2 : 0 < n2)
    (hinv : stride * (n1 * n2) = N)
    (hlow : ∀ i r, i < n1 → r < n2 →
      pre (i * n2 + r) =
        ∑ m ∈ Finset.range n2, y (i + m * n1) * omega ^ (stride * n1 * r * m))
    (hhigh : ∀ k, n1 * n2 ≤ k → pre k = spectrum k) :
    (∀ k, k < n1 * n2 →
      butterfly pre stride (fft_twiddles omega N) n2 n1 k =
        ∑ i ∈ Finset.range (n1 * n2), y i * omega ^ (stride * k * i)) ∧
    (∀ k, n1 * n2 ≤ k →
      butterfly pre stride (fft_twiddles omega N) n2 n1 k = spectrum k) := by
  constructor
  · intro k hk
    obtain ⟨q, r, hr, rfl⟩ : ∃ q r, r < n2 ∧ k = n2 * q + r :=
      ⟨k / n2, k % n2, Nat.mod_lt _ hn2, (Nat.div_add_mod k n2).symm⟩
    have hmodk : (n2 * q + r) % n2 = r := by
      rw [Nat.mul_add_mod, Nat.mod_eq_of_lt hr]
    unfold butterfly
    rw [fft_twiddles_length, if_pos hk]
    have hstep : stride * (n2 * q + r) < N := by
      have := (Nat.mul_lt_mul_left hstride).mpr hk
      omega
    have hterm : ∀ s ∈ Finset.range n1,
        pre ((n2 * q + r) % n2 + s * n2) *
          (fft_twiddles omega N).getD
            (twiddleIdx (stride * (n2 * q + r)) N s) 0 =
        ∑ m ∈ Finset.range n2,
          y (s + m * n1) *
            omega ^ (stride * n1 * r * m + stride * (n2 * q + r) * s) := by
      intro s hs
      have hsn1 : s < n1 := Finset.mem_range.mp hs
      have htw : twiddleIdx (stride * (n2 * q + r)) N s =
          stride * (n2 * q + r) * s % N := twiddleIdx_eq_mod _ _ hstep s
      have htwlt : stride * (n2 * q + r) * s % N < N := Nat.mod_lt _ hN
      rw [htw, fft_twiddles_getD omega htwlt, pow_mod_cycle h1, hmodk]
      have hidx : r + s * n2 = s * n2 + r := by omega
      rw [hidx, hlow s r hsn1 hr, Finset.sum_mul]
      refine Finset.sum_congr rfl fun m _ => ?_
      rw [mul_assoc, ← pow_add]
    rw [Finset.sum_congr rfl hterm,
      sum_range_mul_split (fun i =>
        y i * omega ^ (stride * (n2 * q + r) * i)) n1 n2]
    refine Finset.sum_congr rfl fun s _ => Finset.sum_congr rfl fun m _ => ?_
    have hexp : stride * (n2 * q + r) * (s + m * n1) =
        stride * n1 * r * m + stride * (n2 * q + r) * s + N * (m * q) := by
      rw [← hinv]
      ring
    conv_rhs => rw [hexp, pow_add, pow_mul, h1, one_pow, mul_one]
  · intro k hk
    unfold butterfly
    rw [fft_twiddles_length, if_neg (by omega)]
    exact hhigh k hk


lemma getD_drop {R : Type} [Zero R] (l : List R) (a b : ℕ) :
    (l.drop a).getD b 0 = l.getD (a + b) 0 := by
  rw [List.getD_eq_getElem?_getD, List.getD_eq_getElem?_getD,
    List.getElem?_drop]

lemma overlayLoop_spec {R : Type} (n2 : ℕ) (hn2 : 0 < n2) (iMax : ℕ)
    (call : ℕ → (ℕ → R) → ℕ → R) (F : ℕ → ℕ → R)
    (hcall : ∀ i, i < iMax → ∀ spec : ℕ → R,
      (∀ r, r < n2 → call i spec r = F i r) ∧
      (∀ m, n2 ≤ m → call i spec m = spec m)) :
    ∀ i, i ≤ iMax → ∀ spectrum : ℕ → R,
      (∀ k, k < i * n2 →
        overlayLoop n2 call i spectrum k = F (k / n2) (k % n2)) ∧
      (∀ k, i * n2 ≤ k → overlayLoop n2 call i spectrum k = spectrum k) := by
  intro i
  induction i with
  | zero =>
    intro _ spectrum
    exact ⟨fun k hk => absurd hk (by omega), fun k _ => rfl⟩
  | succ i ih =>
    intro hle spectrum
    obtain ⟨ihlow, ihhigh⟩ := ih (by omega) spectrum
    have hmul : (i + 1) * n2 = i * n2 + n2 := by ring
    have hbody : ∀ k, overlayLoop n2 call (i + 1) spectrum k =
        if i * n2 ≤ k then
          call i (fun m => overlayLoop n2 call i spectrum (m + i * n2))
            (k - i * n2)
        else overlayLoop n2 call i spectrum k := fun k => rfl
    constructor
    · intro k hk
      rw [hbody k]
      rcases lt_or_le k (i * n2) with h | h
      · rw [if_neg (by omega)]
        exact ihlow k h
      · rw [if_pos h]
        have hr : k - i * n2 < n2 := by omega
        rw [(hcall i (by omega) _).1 _ hr]
        have hx : k - i * n2 + n2 * i = k := by
          have := Nat.mul_comm n2 i
          omega
        have hdiv : k / n2 = i := by
          conv_lhs => rw [← hx]
          rw [Nat.add_mul_div_left _ _ hn2, Nat.div_eq_of_lt hr]
          omega
        have hmod : k % n2 = k - i * n2 := by
          conv_lhs => rw [← hx]
          rw [Nat.add_mul_mod_self_left, Nat.mod_eq_of_lt hr]
        rw [hdiv, hmod]
    · intro k hk
      rw [hbody k, if_pos (by omega)]
      rw [(hcall i (by omega) _).2 _ (by omega)]
      have hx : k - i * n2 + i * n2 = k := by omega
      rw [hx]
      exact ihhigh k (by omega)


lemma div_mod_mul_add (i r n2 : ℕ) (hn2 : 0 < n2) (hr : r < n2) :
    (i * n2 + r) / n2 = i ∧ (i * n2 + r) % n2 = r := by
  have h : i * n2 + r = r + n2 * i := by ring
  constructor
  · rw [h, Nat.add_mul_div_left _ _ hn2, Nat.div_eq_of_lt hr]
    omega
  · rw [h, Nat.add_mul_mod_self_left, Nat.mod_eq_of_lt hr]

lemma cooley_tukey_spec {R : Type} [CommRing R] [IsDomain R] {omega : R}
    {N : ℕ} (homega : IsPrimitiveRoot omega N) (hN : 0 < N)
    (inverse : Bool) :
    ∀ factors : List (ℕ × ℕ), factors ≠ [] → wellFormed factors →
    ∀ (signal : List R) (spectrum : ℕ → R) (stride : ℕ),
      0 < stride →
      stride * prodFirsts factors = N →
      signal.length ≤ N →
      N < signal.length + stride →
      (∀ k, k < prodFirsts factors →
        cooley_tukey (fft_twiddles omega N) inverse factors signal spectrum
            stride k =
          ∑ i ∈ Finset.range (prodFirsts factors),
            signal.getD (i * stride) 0 * omega ^ (stride * k * i)) ∧
      (∀ k, prodFirsts factors ≤ k →
        cooley_tukey (fft_twiddles omega N) inverse factors signal spectrum
            stride k = spectrum k) := by
  intro factors
  induction factors with
  | nil => intro h; exact absurd rfl h
  | cons head rest ih =>
    obtain ⟨n1, n2⟩ := head
    intro _ hwf signal spectrum stride hstride hprod hsiglen hsigstr
    obtain ⟨hn1, hn2eq, hwfrest⟩ := hwf
    have hLr : 0 < prodFirsts rest := prodFirsts_pos hwfrest
    have hL : prodFirsts ((n1, n2) :: rest) = n1 * n2 := by
      rw [prodFirsts_cons, hn2eq]
    rw [hL] at hprod ⊢
    have hn2pos : 0 < n2 := by rw [hn2eq]; exact hLr
    have hck : cooley_tukey (fft_twiddles omega N) inverse
        ((n1, n2) :: rest) signal spectrum stride =
        butterflyDispatch
          (if n2 = 1 then ct_leaf signal spectrum stride
           else overlayLoop n2 (fun i spec =>
             cooley_tukey (fft_twiddles omega N) inverse rest
               (signal.drop (i * stride)) spec (stride * n1)) n1 spectrum)
          stride (fft_twiddles omega N) n2 n1 inverse := rfl
    rw [hck,
      butterflyDispatch_eq_generic homega hN _ _ _ _ inverse hn1 hprod]
    rcases eq_or_ne n2 1 with h2eq | h2ne
    · subst h2eq
      rw [if_pos rfl]
      have haux : stride * (n1 * 1) = stride * n1 := by ring
      have hcomm : n1 * stride = stride * n1 := Nat.mul_comm n1 stride
      refine butterfly_dft_step homega.pow_eq_one hN
        (ct_leaf signal spectrum stride)
        (fun i => signal.getD (i * stride) 0)
        spectrum stride n1 1 hstride Nat.one_pos hprod ?_ ?_
      · intro i r hi hr
        have hr0 : r = 0 := by omega
        subst hr0
        have hmulle : (i + 1) * stride ≤ n1 * stride :=
          Nat.mul_le_mul_right stride (by omega)
        have hlt : i * stride < signal.length := by
          have hexp : (i + 1) * stride = i * stride + stride := by ring
          omega
        rw [Finset.sum_range_one]
        show ct_leaf signal spectrum stride (i * 1 + 0) = _
        unfold ct_leaf
        have hidx : i * 1 + 0 = i := by omega
        rw [hidx, if_pos hlt]
        have hzero : stride * n1 * 0 * 0 = 0 := by ring
        rw [hzero, pow_zero, mul_one]
        have hargeq : i + 0 * n1 = i := by omega
        rw [hargeq]
      · intro k hk
        have hmulle : n1 * stride ≤ k * stride :=
          Nat.mul_le_mul_right stride (by omega)
        have hcomm2 : k * stride = stride * k := Nat.mul_comm k stride
        unfold ct_leaf
        rw [if_neg (by omega)]
    · rw [if_neg h2ne]
      have hrest_ne : rest ≠ [] := wf_rest_ne_nil ⟨hn1, hn2eq, hwfrest⟩ h2ne
      have hstrn1 : 0 < stride * n1 := Nat.mul_pos hstride (by omega)
      have hassoc : stride * n1 * prodFirsts rest = N := by
        rw [← hn2eq, Nat.mul_assoc]
        exact hprod
      have hB : stride * n1 ≤ N := by
        have h1 : stride * n1 * 1 ≤ stride * n1 * prodFirsts rest :=
          Nat.mul_le_mul_left (stride * n1) hLr
        omega
      have hoverlay := overlayLoop_spec n2 hn2pos n1
        (fun i spec =>
          cooley_tukey (fft_twiddles omega N) inverse rest
            (signal.drop (i * stride)) spec (stride * n1))
        (fun i r => ∑ m ∈ Finset.range n2,
          signal.getD ((i + m * n1) * stride) 0 *
            omega ^ (stride * n1 * r * m))
        ?_ n1 (le_refl n1) spectrum
      · obtain ⟨hprelow, hprehigh⟩ := hoverlay
        refine butterfly_dft_step homega.pow_eq_one hN _
          (fun i => signal.getD (i * stride) 0)
          spectrum stride n1 n2 hstride hn2pos hprod ?_ ?_
        · intro i r hi hr
          have hmul2 : (i + 1) * n2 ≤ n1 * n2 :=
            Nat.mul_le_mul_right n2 (by omega)
          have hexp : (i + 1) * n2 = i * n2 + n2 := by ring
          obtain ⟨hdiv, hmod⟩ := div_mod_mul_add i r n2 hn2pos hr
          rw [hprelow (i * n2 + r) (by omega), hdiv, hmod]
        · exact hprehigh
      · intro i hi spec
        have hlendrop : (signal.drop (i * stride)).length =
            signal.length - i * stride := List.length_drop _ _
        have hA : i * stride + stride ≤ stride * n1 := by
          have h1 : (i + 1) * stride ≤ n1 * stride :=
            Nat.mul_le_mul_right stride (by omega)
          have h2 : (i + 1) * stride = i * stride + stride := by ring
          have h3 : n1 * stride = stride * n1 := Nat.mul_comm n1 stride
          omega
        have hih := ih hrest_ne hwfrest (signal.drop (i * stride)) spec
          (stride * n1) hstrn1 hassoc (by omega) (by omega)
        constructor
        · intro r hr
          show cooley_tukey (fft_twiddles omega N) inverse rest
              (signal.drop (i * stride)) spec (stride * n1) r =
            ∑ m ∈ Finset.range n2,
              signal.getD ((i + m * n1) * stride) 0 *
                omega ^ (stride * n1 * r * m)
          rw [(hih.1 r (by omega))]
          rw [← hn2eq]
          refine Finset.sum_congr rfl fun m _ => ?_
          rw [getD_drop]
          have hidx : i * stride + m * (stride * n1) =
              (i + m * n1) * stride := by ring
          rw [hidx]
        · intro m hm
          exact hih.2 m (by omega)


lemma getD_range_map {R : Type} [Zero R] (f : ℕ → R) {N j : ℕ}
    (hj : j < N) : ((List.range N).map f).getD j 0 = f j := by
  rw [List.getD_eq_getElem?_getD, List.getElem?_map, List.getElem?_range hj]
  rfl

lemma geom_sum_root_ne {R : Type} [CommRing R] [IsDomain R] (u : R)
    (N : ℕ) (hu : u ^ N = 1) (hne : u ≠ 1) :
    ∑ j ∈ Finset.range N, u ^ j = 0 := by
  have hgeom := geom_sum_mul u N
  have hz : (∑ j ∈ Finset.range N, u ^ j) * (u - 1) = 0 := by
    rw [hgeom, hu, sub_self]
  rcases mul_eq_zero.mp hz with h2 | h2
  · exact h2
  · exact absurd (sub_eq_zero.mp h2) hne

lemma mul_inv_primitive {R : Type} [CommRing R] {omegaf omegab : R}
    {N : ℕ} (homega : IsPrimitiveRoot omegaf N)
    (hfb : omegaf * omegab = 1) : IsPrimitiveRoot omegab N := by
  constructor
  · have h1 : omegaf ^ N * omegab ^ N = 1 := by
      rw [← mul_pow, hfb, one_pow]
    rw [homega.pow_eq_one, one_mul] at h1
    exact h1
  · intro l hl
    have h1 : omegaf ^ l = 1 := by
      have h2 : omegaf ^ l * omegab ^ l = 1 := by
        rw [← mul_pow, hfb, one_pow]
      rw [hl, mul_one] at h2
      exact h2
    exact homega.dvd_of_pow_eq_one l h1

lemma factor_facts (n : ℕ) (hn : 2 ≤ n) :
    factor n ≠ [] ∧ wellFormed (factor n) ∧ prodFirsts (factor n) = n := by
  obtain ⟨hprod, hwf, _, _⟩ := factorAux_spec n n (by omega) (le_refl n)
  refine ⟨?_, hwf, hprod⟩
  intro h
  have h2 : factorAux n n = [] := h
  rw [h2] at hprod
  simp [prodFirsts] at hprod
  omega

/-- C1 counterexample: at N = 1 the factor list is empty, so
FFT::process leaves the spectrum buffer untouched; starting from
zero-filled output buffers, forward-then-inverse on the signal [5]
produces [0], not 1 * [5].  The forward and inverse roots for N = 1 are
both exactly 1. -/
theorem c1_n_one_counterexample :
    FFT.process (1 : ℤ) 1 false [5] [0] = .ok [0] ∧
    FFT.process (1 : ℤ) 1 true [0] [0] = .ok [0] ∧
    ([0] : List ℤ).getD 0 0 ≠ (1 : ℤ) * ([5] : List ℤ).getD 0 0 := by
  refine ⟨rfl, rfl, by decide⟩


/-- C1 amended: for every length N at least 2, running the forward FFT
(FFT::new(N, false) then process) and then the inverse FFT
(FFT::new(N, true) then process) on the result yields N times the
signal elementwise; neither direction applies any normalization.  For
N = 1 the factor list is empty and process leaves the output buffer
untouched (see the counterexample), so the lower bound 2 is required.
The float twiddle exponentials are abstracted as mutually inverse
primitive N-th roots of unity, omegaf forward and omegab inverse, in an
integral domain. -/
theorem c1_inverse_forward_scales_by_n {R : Type} [CommRing R]
    [IsDomain R] (N : ℕ) (hN : 2 ≤ N) (omegaf omegab : R)
    (homega : IsPrimitiveRoot omegaf N) (hfb : omegaf * omegab = 1)
    (x s1 s2 y z : List R)
    (hx : x.length = N) (hs1 : s1.length = N) (hs2 : s2.length = N)
    (hy : FFT.process omegaf N false x s1 = .ok y)
    (hz : FFT.process omegab N true y s2 = .ok z)
    (k : ℕ) (hk : k < N) :
    z.getD k 0 = (N : R) * x.getD k 0 := by
  have hN0 : 0 < N := by omega
  obtain ⟨hfne, hfwf, hfprod⟩ := factor_facts N hN
  have homegab : IsPrimitiveRoot omegab N := mul_inv_primitive homega hfb
  rw [FFT.process, if_neg (by omega), if_neg (by omega)] at hy
  simp only [Except.ok.injEq] at hy
  subst hy
  have hspec1 := cooley_tukey_spec homega hN0 false (factor N) hfne hfwf
    x (fun i => s1.getD i 0) 1 Nat.one_pos (by rw [hfprod]; omega)
    (by omega) (by omega)
  rw [hfprod] at hspec1
  have hylen : ((List.range s1.length).map
      (cooley_tukey (fft_twiddles omegaf N) false (factor N) x
        (fun i => s1.getD i 0) 1)).length = N := by
    simp [hs1]
  rw [FFT.process, if_neg (by simp [hs1, hs2]),
    if_neg (by simp [hs1])] at hz
  simp only [Except.ok.injEq] at hz
  subst hz
  have hspec2 := cooley_tukey_spec homegab hN0 true (factor N) hfne hfwf
    ((List.range s1.length).map
      (cooley_tukey (fft_twiddles omegaf N) false (factor N) x
        (fun i => s1.getD i 0) 1))
    (fun i => s2.getD i 0) 1 Nat.one_pos (by rw [hfprod]; omega)
    (by omega) (by omega)
  rw [hfprod] at hspec2
  rw [hs2, getD_range_map _ hk, hspec2.1 k hk]
  have hyval : ∀ j, j < N →
      ((List.range s1.length).map
        (cooley_tukey (fft_twiddles omegaf N) false (factor N) x
          (fun i => s1.getD i 0) 1)).getD (j * 1) 0 =
        ∑ i ∈ Finset.range N, x.getD i 0 * omegaf ^ (j * i) := by
    intro j hj
    rw [Nat.mul_one, getD_range_map _ (by omega), hspec1.1 j hj]
    refine Finset.sum_congr rfl fun i _ => ?_
    rw [Nat.mul_one, Nat.one_mul]
  calc ∑ j ∈ Finset.range N,
        ((List.range s1.length).map
          (cooley_tukey (fft_twiddles omegaf N) false (factor N) x
            (fun i => s1.getD i 0) 1)).getD (j * 1) 0 *
          omegab ^ (1 * k * j)
      = ∑ j ∈ Finset.range N, ∑ i ∈ Finset.range N,
          x.getD i 0 * ((omegaf ^ i * omegab ^ k) ^ j) := by
        refine Finset.sum_congr rfl fun j hj => ?_
        rw [hyval j (Finset.mem_range.mp hj), Nat.one_mul, Finset.sum_mul]
        refine Finset.sum_congr rfl fun i _ => ?_
        rw [mul_assoc]
        congr 1
        rw [mul_pow, ← pow_mul, ← pow_mul]
        congr 1 <;> ring
    _ = ∑ i ∈ Finset.range N,
          x.getD i 0 * ∑ j ∈ Finset.range N, (omegaf ^ i * omegab ^ k) ^ j := by
        rw [Finset.sum_comm]
        refine Finset.sum_congr rfl fun i _ => ?_
        rw [Finset.mul_sum]
    _ = ∑ i ∈ Finset.range N,
          x.getD i 0 * (if i = k then (N : R) else 0) := by
        refine Finset.sum_congr rfl fun i hi => ?_
        congr 1
        have hiN : i < N := Finset.mem_range.mp hi
        by_cases hik : i = k
        · subst hik
          rw [if_pos rfl]
          have hone : omegaf ^ i * omegab ^ i = 1 := by
            rw [← mul_pow, hfb, one_pow]
          rw [hone]
          simp
        · rw [if_neg hik]
          refine geom_sum_root_ne _ N ?_ ?_
          · rw [mul_pow, ← pow_mul, ← pow_mul, mul_comm i N, mul_comm k N,
              pow_mul, pow_mul, homega.pow_eq_one, homegab.pow_eq_one,
              one_pow, one_pow, one_mul]
          · intro hone
            apply hik
            have hfk : omegaf ^ i = omegaf ^ k := by
              have h2 : omegaf ^ i * (omegab ^ k * omegaf ^ k) = omegaf ^ k := by
                rw [← mul_assoc, hone, one_mul]
              rw [← mul_pow, mul_comm omegab omegaf, hfb, one_pow,
                mul_one] at h2
              exact h2
            exact homega.pow_inj hiN hk hfk
    _ = (N : R) * x.getD k 0 := by
        have hsum : ∑ i ∈ Finset.range N,
            (if i = k then x.getD i 0 * (N : R) else 0) =
            if k ∈ Finset.range N then x.getD k 0 * (N : R) else 0 :=
          Finset.sum_ite_eq' (Finset.range N) k
            (fun i => x.getD i 0 * (N : R))
        rw [Finset.sum_congr rfl (fun i _ => by
          rw [mul_ite, mul_zero]), hsum, if_pos (Finset.mem_range.mpr hk),
          mul_comm]


theorem c1_inverse_forward_scales_by_n_witness :
    FFT.process (-1 : ℤ) 2 false [1, 2] [0, 0] = .ok [3, -1] ∧
    FFT.process (-1 : ℤ) 2 true [3, -1] [0, 0] = .ok [2, 4] ∧
    ([2, 4] : List ℤ).getD 0 0 = (2 : ℤ) * ([1, 2] : List ℤ).getD 0 0 := by
  have hprim : IsPrimitiveRoot (-1 : ℤ) 2 := by
    constructor
    · norm_num
    · intro l hl
      rcases Nat.even_or_odd l with he | ho
      · exact he.two_dvd
      · rw [ho.neg_one_pow] at hl
        norm_num at hl
  have h1 : FFT.process (-1 : ℤ) 2 false [1, 2] [0, 0] = .ok [3, -1] := by
    rfl
  have h2 : FFT.process (-1 : ℤ) 2 true [3, -1] [0, 0] = .ok [2, 4] := by
    rfl
  exact ⟨h1, h2,
    c1_inverse_forward_scales_by_n 2 (le_refl 2) (-1) (-1) hprim
      (by norm_num) [1, 2] [0, 0] [0, 0] [3, -1] [2, 4] rfl rfl rfl h1 h2
      0 (by norm_num)⟩

end RustFFT
